import Mathlib

/-!
# Verification of the A1miniNoter track allocator (`src/main.js`, `processMidi`)

Shallow embedding of the note-allocation pass of `processMidi`:
an arbitrary multi-track note input is redistributed onto three fixed
output tracks (Main Theme = 0, Chord = 1, Base = 2).  Times and durations
are modelled as rationals, pitches as integers; the tolerance `1e-6` and
the truncation floor `0.01` of the source become the exact rationals
`1/1000000` and `1/100`.
-/

namespace A1miniNoter

/-- A note as collected by `processMidi` (src/main.js lines 88–96):
`{ midi, time, duration, velocity, endTime, origTrack }`. -/
structure Note where
  midi : Int
  time : ℚ
  duration : ℚ
  velocity : ℚ
  endTime : ℚ
  origTrack : Nat
deriving DecidableEq, Repr

/-- A raw input note of one source track, before collection tags it with
its origin-track index and computes `endTime`. -/
structure RawNote where
  midi : Int
  time : ℚ
  duration : ℚ
  velocity : ℚ
deriving DecidableEq, Repr

/-- The overlap tolerance `1e-6` of src/main.js lines 126 and 144. -/
def eps : ℚ := 1/1000000

/-- One of the three output tracks (`TRACK_NAMES = ['Main Theme', 'Chord', 'Base']`). -/
abbrev Track := Fin 3

/-- The fixed role order of `TRACK_NAMES`. -/
def trackIdxs : List Track := [0, 1, 2]

/-- The ε-tolerant overlap test of src/main.js lines 125–127 and 143–145:
`!(note.endTime <= n.time + 1e-6 || note.time >= n.endTime - 1e-6)`. -/
def overlapsB (note n : Note) : Bool :=
  !(decide (note.endTime ≤ n.time + eps) || decide (n.endTime - eps ≤ note.time))

/-- JS `Math.max(...l)` on a list of integers: `none` models the empty
spread (where JS yields `-Infinity`, equal to no pitch). -/
def jsMax : List Int → Option Int
  | [] => none
  | x :: xs => some (xs.foldl max x)

/-- The low-pitch test of src/main.js line 117:
`note.midi === Math.min(...notesAtTime.map(n=>n.time).map(n=>n.midi))`.
In JS, `.midi` of a number is `undefined`, `Math.min` of `undefined`
is `NaN`, and `x === NaN` is false for every `x`, so the source's test is
identically false; it is embedded as the constant `false`. -/
def brokenBaseCheck (_notesAtTime : List Note) (_note : Note) : Bool :=
  false

/-- The pitch-based track suggestion `idxByPitch` of src/main.js
lines 113–117: default 1 (Chord); 0 (Main Theme) when the note's pitch is
the maximum pitch among all notes sharing its exact start time; the
2 (Base) branch is guarded by the broken test above. -/
def idxByPitch (allNotes : List Note) (note : Note) : Track :=
  let notesAtTime := allNotes.filter (fun n => decide (n.time = note.time))
  if some note.midi = jsMax (notesAtTime.map (fun (n : Note) => n.midi)) then 0
  else if brokenBaseCheck notesAtTime note then 2
  else 1

/-- The candidate order of src/main.js line 118: `tryOrder` starts as the
fixed role order and positions 0 and `idxByPitch` are swapped when
`idxByPitch ≠ 0`. -/
def tryOrderNoAff (allNotes : List Note) (note : Note) : List Track :=
  let ib := idxByPitch allNotes note
  if ib = 0 then trackIdxs
  else if ib = 1 then [1, 0, 2]
  else [2, 1, 0]

/-- `origTrackToTarget.get` / `.has` on the affinity map (a JS `Map`),
modelled as an association list. -/
def lookupAff (aff : List (Nat × Track)) (k : Nat) : Option Track :=
  (aff.find? (fun p => p.1 == k)).map Prod.snd

/-- The guarded `origTrackToTarget.set` of src/main.js lines 151–153,
172–174 and 190–192: the entry is written only when absent. -/
def insertIfAbsent (aff : List (Nat × Track)) (k : Nat) (v : Track) :
    List (Nat × Track) :=
  match lookupAff aff k with
  | some _ => aff
  | none => (k, v) :: aff

/-- The in-place truncation of the existing note `overlap` at
src/main.js lines 185–186: `overlap.duration = note.time - overlap.time;
overlap.endTime = overlap.time + overlap.duration`. -/
def shrinkExisting (ov : Note) (t : ℚ) : Note :=
  { ov with duration := t - ov.time, endTime := ov.time + (t - ov.time) }

/-- JS object mutation of the note returned by `find`: replace the first
note of the array satisfying the overlap predicate. -/
def replaceFirstOverlap (note newOv : Note) : List Note → List Note
  | [] => []
  | n :: ns =>
    if overlapsB note n then newOv :: ns else n :: replaceFirstOverlap note newOv ns

/-- The truncated copy of the incoming note at src/main.js line 168:
`{ ...note, duration: newDuration, endTime: overlap.time }`. -/
def truncateIncoming (note : Note) (ovTime : ℚ) : Note :=
  { note with duration := ovTime - note.time, endTime := ovTime }

/-- One candidate-track attempt of the full scan, src/main.js
lines 142–199: place the note verbatim when no overlap is found;
otherwise try the two truncation rules against the first overlapping
note; `none` when the track cannot accept the note.  The source tests
the two outer conditions in sequence (a failed `> 0.01` floor of rule
one falls through to rule two), which is the same else-if chain on the
combined conditions. -/
def tryTrack (note : Note) (notesArr : List Note) : Option (List Note) :=
  match notesArr.find? (fun n => overlapsB note n) with
  | none => some (notesArr ++ [note])
  | some ov =>
    if decide (note.time < ov.time) && decide (ov.time + eps < note.endTime)
        && decide (1/100 < ov.time - note.time) then
      some (notesArr ++ [truncateIncoming note ov.time])
    else if decide (note.time + eps < ov.endTime)
        && decide (note.endTime + eps < ov.endTime)
        && decide (ov.time < note.time - eps)
        && decide (1/100 < note.time - ov.time) then
      some (replaceFirstOverlap note (shrinkExisting ov note.time) notesArr ++ [note])
    else none

/-- The `for` loop over `tryOrder` of src/main.js lines 137–200:
skip the already-tried preferred index, return the first candidate track
(with its new contents) that accepts the note. -/
def scanTracks (note : Note) (skip : Option Track) (tracks : Track → List Note) :
    List Track → Option (Track × List Note)
  | [] => none
  | i :: rest =>
    if skip = some i then scanTracks note skip tracks rest
    else
      match tryTrack note (tracks i) with
      | some newArr => some (i, newArr)
      | none => scanTracks note skip tracks rest

/-- The mutable state of one allocation pass: the three per-track note
arrays (`trackState` / `trackMap`), the affinity map
(`origTrackToTarget`), and the list of dropped notes (the source only
logs drops; recording them makes the drop count observable). -/
structure AllocState where
  tracks : Track → List Note
  affinity : List (Nat × Track)
  dropped : List Note

/-- The empty state at the start of the pass. -/
def initState : AllocState :=
  { tracks := fun _ => [], affinity := [], dropped := [] }

/-- Outcome of the full candidate scan for one note (src/main.js
lines 136–204): on success update the chosen track and record affinity
when unset; otherwise the note is dropped. -/
def fullScanStep (note : Note) (skip : Option Track) (tryOrder : List Track)
    (s : AllocState) : AllocState :=
  match scanTracks note skip s.tracks tryOrder with
  | some (i, newArr) =>
    { s with tracks := Function.update s.tracks i newArr,
             affinity := insertIfAbsent s.affinity note.origTrack i }
  | none => { s with dropped := s.dropped ++ [note] }

/-- Processing of one note, src/main.js lines 104–205: the affinity fast
path (lines 122–133) assigns to the preferred track when free; otherwise
the full scan runs over the candidate order, skipping the preferred
track when one exists. -/
def allocStep (allNotes : List Note) (s : AllocState) (note : Note) : AllocState :=
  match lookupAff s.affinity note.origTrack with
  | some p =>
    match (s.tracks p).find? (fun n => overlapsB note n) with
    | none => { s with tracks := Function.update s.tracks p (s.tracks p ++ [note]) }
    | some _ =>
      fullScanStep note (some p) (p :: trackIdxs.filter (fun i => decide (i ≠ p))) s
  | none => fullScanStep note none (tryOrderNoAff allNotes note) s

/-- The loop `for (const note of allNotes)` of src/main.js line 104. -/
def allocAll (allNotes : List Note) : AllocState → List Note → AllocState
  | s, [] => s
  | s, n :: rest => allocAll allNotes (allocStep allNotes s n) rest

/-- Collection of all notes with their origin-track tag, src/main.js
lines 88–96: `midi.tracks.flatMap((track, trackIdx) => track.notes.map(...))`. -/
def collectNotes (input : List (List RawNote)) : List Note :=
  (input.enum.map (fun p => p.2.map (fun r =>
    { midi := r.midi, time := r.time, duration := r.duration,
      velocity := r.velocity, endTime := r.time + r.duration,
      origTrack := p.1 : Note }))).flatten

/-- The sort comparator of src/main.js line 97,
`(a, b) => a.time - b.time || b.midi - a.midi`, as the total preorder
"comparator ≤ 0": start time ascending, ties by pitch descending. -/
def noteLE (a b : Note) : Bool :=
  decide (a.time < b.time) || (decide (a.time = b.time) && decide (b.midi ≤ a.midi))

/-- The globally sorted processing sequence of src/main.js lines 88–97. -/
def sortedNotes (input : List (List RawNote)) : List Note :=
  (collectNotes input).mergeSort noteLE

/-- The whole allocation pass of `processMidi` over an input
(src/main.js lines 80–205, before the final per-track sort). -/
def allocPass (input : List (List RawNote)) : AllocState :=
  allocAll (sortedNotes input) initState (sortedNotes input)

/-- The final per-track sort comparator of src/main.js line 209,
`(a, b) => a.time - b.time`. -/
def timeLE (a b : Note) : Bool :=
  decide (a.time ≤ b.time)

/-- The three output note sequences of `processMidi` (src/main.js
lines 207–210): each track's notes, sorted by start time. -/
def processMidi (input : List (List RawNote)) : Track → List Note :=
  fun i => ((allocPass input).tracks i).mergeSort timeLE

/-! ## Basic facts about the overlap test -/

theorem eps_pos : (0 : ℚ) < eps := by norm_num [eps]

/-- Proposition form of the ε-tolerant overlap test. -/
def Olap (a b : Note) : Prop :=
  b.time + eps < a.endTime ∧ a.time < b.endTime - eps

theorem overlapsB_iff {a b : Note} : overlapsB a b = true ↔ Olap a b := by
  simp only [overlapsB, Olap, Bool.not_eq_true', Bool.or_eq_false_iff,
    decide_eq_false_iff_not, not_le]

theorem overlapsB_false_iff {a b : Note} : overlapsB a b = false ↔ ¬ Olap a b := by
  rw [← Bool.not_eq_true, not_iff_not, overlapsB_iff]

/-- Two notes of a track that do not overlap (in the order of the test). -/
def nonOlap (a b : Note) : Prop := overlapsB a b = false

theorem olap_comm {a b : Note} : Olap a b ↔ Olap b a := by
  unfold Olap
  constructor <;> (rintro ⟨h1, h2⟩; constructor <;> linarith)

theorem nonOlap_comm {a b : Note} : nonOlap a b ↔ nonOlap b a := by
  simp only [nonOlap, overlapsB_false_iff]
  exact not_congr olap_comm

theorem nonOlap_def {a b : Note} : nonOlap a b ↔ ¬ Olap a b := overlapsB_false_iff

/-- Shrinking the end of the left note preserves non-overlap. -/
theorem nonOlap_mono_left {a a' b : Note} (ht : a'.time = a.time)
    (he : a'.endTime ≤ a.endTime) (h : nonOlap a b) : nonOlap a' b := by
  rw [nonOlap_def] at h ⊢
  rintro ⟨h1, h2⟩
  exact h ⟨lt_of_lt_of_le h1 he, by rw [ht] at h2; exact h2⟩

/-- Shrinking the end of the right note preserves non-overlap. -/
theorem nonOlap_mono_right {a b b' : Note} (ht : b'.time = b.time)
    (he : b'.endTime ≤ b.endTime) (h : nonOlap a b) : nonOlap a b' := by
  rw [nonOlap_def] at h ⊢
  rintro ⟨h1, h2⟩
  exact h ⟨by rw [ht] at h1; exact h1, lt_of_lt_of_le h2 (by linarith)⟩

/-! ## Structure of `find?` and `replaceFirstOverlap` -/

theorem find?_split {p : Note → Bool} {l : List Note} {ov : Note}
    (h : l.find? p = some ov) :
    ∃ pre post, l = pre ++ ov :: post ∧ ∀ x ∈ pre, p x = false := by
  induction l with
  | nil => simp at h
  | cons a l ih =>
    by_cases hp : p a
    · rw [List.find?_cons_of_pos _ hp] at h
      cases Option.some.inj h
      exact ⟨[], l, rfl, by simp⟩
    · rw [List.find?_cons_of_neg _ (by simpa using hp)] at h
      obtain ⟨pre, post, heq, hpre⟩ := ih h
      refine ⟨a :: pre, post, by simp [heq], ?_⟩
      intro x hx
      rcases List.mem_cons.mp hx with rfl | hx
      · simpa using hp
      · exact hpre x hx

theorem replaceFirstOverlap_of_split {note newOv ov : Note} {pre post : List Note}
    (hpre : ∀ x ∈ pre, overlapsB note x = false) (hov : overlapsB note ov = true) :
    replaceFirstOverlap note newOv (pre ++ ov :: post) = pre ++ newOv :: post := by
  induction pre with
  | nil => simp [replaceFirstOverlap, hov]
  | cons a pre ih =>
    have ha : overlapsB note a = false := hpre a (by simp)
    have hrec := ih (fun x hx => hpre x (List.mem_cons_of_mem a hx))
    simp only [List.cons_append, replaceFirstOverlap, ha, Bool.false_eq_true, if_false,
      List.append_eq]
    rw [hrec]

theorem replaceFirstOverlap_length (note newOv : Note) (l : List Note) :
    (replaceFirstOverlap note newOv l).length = l.length := by
  induction l with
  | nil => rfl
  | cons a l ih =>
    by_cases h : overlapsB note a <;> simp [replaceFirstOverlap, h, ih]

/-! ## Characterisation of `tryTrack` -/

/-- Facts about `shrinkExisting`. -/
theorem shrinkExisting_time (ov : Note) (t : ℚ) : (shrinkExisting ov t).time = ov.time := rfl

theorem shrinkExisting_endTime (ov : Note) (t : ℚ) : (shrinkExisting ov t).endTime = t := by
  simp [shrinkExisting]

theorem shrinkExisting_duration (ov : Note) (t : ℚ) :
    (shrinkExisting ov t).duration = t - ov.time := rfl

/-- The three ways `tryTrack` can accept a note. -/
theorem tryTrack_some_cases {note : Note} {arr out : List Note}
    (h : tryTrack note arr = some out) :
    (arr.find? (fun n => overlapsB note n) = none ∧ out = arr ++ [note]) ∨
    (∃ ov, arr.find? (fun n => overlapsB note n) = some ov ∧
      note.time < ov.time ∧ ov.time + eps < note.endTime ∧
      1/100 < ov.time - note.time ∧
      out = arr ++ [truncateIncoming note ov.time]) ∨
    (∃ ov, arr.find? (fun n => overlapsB note n) = some ov ∧
      note.time + eps < ov.endTime ∧ note.endTime + eps < ov.endTime ∧
      ov.time < note.time - eps ∧ 1/100 < note.time - ov.time ∧
      out = replaceFirstOverlap note (shrinkExisting ov note.time) arr ++ [note]) := by
  unfold tryTrack at h
  cases hf : arr.find? (fun n => overlapsB note n) with
  | none =>
    rw [hf] at h
    dsimp only at h
    exact Or.inl ⟨rfl, (Option.some.inj h).symm⟩
  | some ov =>
    rw [hf] at h
    dsimp only at h
    by_cases h1 : note.time < ov.time ∧ ov.time + eps < note.endTime ∧
        1/100 < ov.time - note.time
    · rw [if_pos (by
        simp only [Bool.and_eq_true, decide_eq_true_eq]
        exact ⟨⟨h1.1, h1.2.1⟩, h1.2.2⟩)] at h
      exact Or.inr (Or.inl ⟨ov, rfl, h1.1, h1.2.1, h1.2.2, (Option.some.inj h).symm⟩)
    · rw [if_neg (by
        simp only [Bool.and_eq_true, decide_eq_true_eq]
        rintro ⟨⟨ha, hb⟩, hc⟩
        exact h1 ⟨ha, hb, hc⟩)] at h
      by_cases h2 : note.time + eps < ov.endTime ∧ note.endTime + eps < ov.endTime ∧
          ov.time < note.time - eps ∧ 1/100 < note.time - ov.time
      · rw [if_pos (by
          simp only [Bool.and_eq_true, decide_eq_true_eq]
          exact ⟨⟨⟨h2.1, h2.2.1⟩, h2.2.2.1⟩, h2.2.2.2⟩)] at h
        exact Or.inr (Or.inr ⟨ov, rfl, h2.1, h2.2.1, h2.2.2.1, h2.2.2.2,
          (Option.some.inj h).symm⟩)
      · rw [if_neg (by
          simp only [Bool.and_eq_true, decide_eq_true_eq]
          rintro ⟨⟨⟨ha, hb⟩, hc⟩, hd⟩
          exact h2 ⟨ha, hb, hc, hd⟩)] at h
        exact absurd h (by simp)

theorem tryTrack_length {note : Note} {arr out : List Note}
    (h : tryTrack note arr = some out) : out.length = arr.length + 1 := by
  rcases tryTrack_some_cases h with ⟨_, rfl⟩ | ⟨ov, _, _, _, _, rfl⟩ |
    ⟨ov, _, _, _, _, _, rfl⟩ <;>
    simp [replaceFirstOverlap_length]

/-- A successful scan of the candidate order is a successful `tryTrack`
on the returned track. -/
theorem scanTracks_some {note : Note} {skip : Option Track}
    {tracks : Track → List Note} {order : List Track} {i : Track} {arr : List Note}
    (h : scanTracks note skip tracks order = some (i, arr)) :
    tryTrack note (tracks i) = some arr := by
  induction order with
  | nil => simp [scanTracks] at h
  | cons j rest ih =>
    unfold scanTracks at h
    by_cases hs : skip = some j
    · rw [if_pos hs] at h
      exact ih h
    · rw [if_neg hs] at h
      cases ht : tryTrack note (tracks j) with
      | none => rw [ht] at h; exact ih h
      | some newArr =>
        rw [ht] at h
        dsimp only at h
        have hji := Option.some.inj h
        have hj : j = i := congrArg Prod.fst hji
        have ha : newArr = arr := congrArg Prod.snd hji
        subst hj
        subst ha
        exact ht

/-! ## The allocation invariant -/

/-- `endTime` is consistent with `time + duration`. -/
def EndCons (n : Note) : Prop := n.endTime = n.time + n.duration

/-- An allocated note derives from an input note of the pool: every field
but the duration is preserved, the duration never grows, and it either is
untouched (the note is the input note itself) or lies strictly above the
`0.01` truncation floor. -/
def Derives (pool : List Note) (n : Note) : Prop :=
  ∃ m ∈ pool, n.midi = m.midi ∧ n.time = m.time ∧ n.velocity = m.velocity ∧
    n.origTrack = m.origTrack ∧ n.duration ≤ m.duration ∧
    (n = m ∨ 1/100 < n.duration)

theorem derives_self {pool : List Note} {n : Note} (h : n ∈ pool) : Derives pool n :=
  ⟨n, h, rfl, rfl, rfl, rfl, le_refl _, Or.inl rfl⟩

theorem appendNote_pairwise {note : Note} {arr : List Note}
    (hfree : arr.Pairwise nonOlap)
    (hno : ∀ x ∈ arr, overlapsB note x = false) :
    (arr ++ [note]).Pairwise nonOlap := by
  rw [List.pairwise_append]
  refine ⟨hfree, List.pairwise_singleton _ _, ?_⟩
  intro a ha b hb
  rw [List.mem_singleton.mp hb]
  exact nonOlap_comm.mp (hno a ha)

/-- Track-level preservation: a successful `tryTrack` keeps the track
overlap-free, keeps every note derived from the pool with a consistent
`endTime`, and adds no note starting after the incoming note. -/
theorem tryTrack_inv {pool : List Note} {note : Note} {arr out : List Note}
    (hfree : arr.Pairwise nonOlap)
    (htime : ∀ n ∈ arr, n.time ≤ note.time)
    (hder : ∀ n ∈ arr, Derives pool n)
    (hcons : ∀ n ∈ arr, EndCons n)
    (hnote : Derives pool note) (hnotec : EndCons note)
    (h : tryTrack note arr = some out) :
    out.Pairwise nonOlap ∧ (∀ n ∈ out, Derives pool n) ∧
    (∀ n ∈ out, EndCons n) ∧ (∀ n ∈ out, n.time ≤ note.time) := by
  rcases tryTrack_some_cases h with ⟨hf, rfl⟩ | ⟨ov, hf, hlt, _, _, rfl⟩ |
    ⟨ov, hf, c1, c2, c3, c4, rfl⟩
  · -- no overlap on the track: verbatim append
    have hno : ∀ x ∈ arr, overlapsB note x = false := by
      intro x hx
      simpa using List.find?_eq_none.mp hf x hx
    refine ⟨appendNote_pairwise hfree hno, ?_, ?_, ?_⟩ <;>
      (intro n hn
       rcases List.mem_append.mp hn with hn | hn)
    · exact hder n hn
    · rw [List.mem_singleton.mp hn]; exact hnote
    · exact hcons n hn
    · rw [List.mem_singleton.mp hn]; exact hnotec
    · exact htime n hn
    · rw [List.mem_singleton.mp hn]
  · -- truncating the incoming note requires `note.time < ov.time`, which
    -- contradicts that all placed notes start no later
    exact absurd hlt (not_lt.mpr (htime ov (List.mem_of_find?_eq_some hf)))
  · -- truncating the existing note in place
    obtain ⟨pre, post, rfl, hpre⟩ := find?_split hf
    have hovin : overlapsB note ov = true := List.find?_some hf
    rw [replaceFirstOverlap_of_split hpre hovin]
    have hovmem : ov ∈ pre ++ ov :: post := by simp
    have hovcons : EndCons ov := hcons ov hovmem
    have hovtime : ov.time ≤ note.time := htime ov hovmem
    have heps := eps_pos
    -- the shrunk existing note
    have hov'time : (shrinkExisting ov note.time).time = ov.time := rfl
    have hov'end : (shrinkExisting ov note.time).endTime = note.time :=
      shrinkExisting_endTime ov note.time
    have hov'le : (shrinkExisting ov note.time).endTime ≤ ov.endTime := by
      rw [hov'end]; linarith
    rw [List.pairwise_append] at hfree
    obtain ⟨hPwPre, hPwCons, hPreAll⟩ := hfree
    rw [List.pairwise_cons] at hPwCons
    obtain ⟨hOvPost, hPwPost⟩ := hPwCons
    have hpre' : ∀ a ∈ pre, nonOlap a (shrinkExisting ov note.time) := fun a ha =>
      nonOlap_mono_right hov'time hov'le (hPreAll a ha ov (by simp))
    have hpost' : ∀ b ∈ post, nonOlap (shrinkExisting ov note.time) b := fun b hb =>
      nonOlap_mono_left hov'time hov'le (hOvPost b hb)
    have hov'note : nonOlap (shrinkExisting ov note.time) note := by
      rw [nonOlap_def]
      rintro ⟨h1, _⟩
      rw [hov'end] at h1
      linarith
    have hprenote : ∀ a ∈ pre, nonOlap a note := fun a ha =>
      nonOlap_comm.mp (overlapsB_false_iff.mpr (by
        have := hpre a ha
        rw [overlapsB_false_iff] at this
        exact this))
    have hpostnote : ∀ b ∈ post, nonOlap b note := by
      intro b hb
      rw [nonOlap_def]
      rintro ⟨hb1, hb2⟩
      have hOvB := hOvPost b hb
      rw [nonOlap_def] at hOvB
      exact hOvB ⟨by linarith, by linarith⟩
    refine ⟨?_, ?_, ?_, ?_⟩
    · -- pairwise non-overlap of pre ++ ov' :: post ++ [note]
      rw [List.pairwise_append]
      refine ⟨?_, List.pairwise_singleton _ _, ?_⟩
      · rw [List.pairwise_append]
        refine ⟨hPwPre, List.pairwise_cons.mpr ⟨hpost', hPwPost⟩, ?_⟩
        intro a ha b hb
        rcases List.mem_cons.mp hb with rfl | hb
        · exact hpre' a ha
        · exact hPreAll a ha b (by simp [hb])
      · intro a ha b hb
        rw [List.mem_singleton.mp hb]
        rcases List.mem_append.mp ha with ha | ha
        · exact hprenote a ha
        · rcases List.mem_cons.mp ha with rfl | ha
          · exact hov'note
          · exact hpostnote a ha
    · -- derivation from the pool
      intro n hn
      rcases List.mem_append.mp hn with hn | hn
      · rcases List.mem_append.mp hn with hn | hn
        · exact hder n (by simp [hn])
        · rcases List.mem_cons.mp hn with rfl | hn
          · obtain ⟨m, hm, e1, e2, e3, e4, e5, _⟩ := hder ov hovmem
            refine ⟨m, hm, e1, e2, e3, e4, ?_, Or.inr ?_⟩
            · rw [shrinkExisting_duration]
              rw [EndCons] at hovcons
              have : note.time - ov.time < ov.duration := by linarith
              linarith
            · rw [shrinkExisting_duration]; exact c4
          · exact hder n (by simp [hn])
      · rw [List.mem_singleton.mp hn]; exact hnote
    · -- endTime consistency
      intro n hn
      rcases List.mem_append.mp hn with hn | hn
      · rcases List.mem_append.mp hn with hn | hn
        · exact hcons n (by simp [hn])
        · rcases List.mem_cons.mp hn with rfl | hn
          · rw [EndCons, shrinkExisting_endTime, shrinkExisting_duration, hov'time]
            ring
          · exact hcons n (by simp [hn])
      · rw [List.mem_singleton.mp hn]; exact hnotec
    · -- start times no later than the incoming note
      intro n hn
      rcases List.mem_append.mp hn with hn | hn
      · rcases List.mem_append.mp hn with hn | hn
        · exact htime n (by simp [hn])
        · rcases List.mem_cons.mp hn with rfl | hn
          · rw [hov'time]; exact hovtime
          · exact htime n (by simp [hn])
      · rw [List.mem_singleton.mp hn]

/-- The invariant carried through the allocation pass: every track is
pairwise overlap-free, holds only notes derived from the pool with a
consistent `endTime`, and no placed note starts after a pending note;
the pending notes are time-sorted members of the pool with consistent
`endTime`. -/
structure Inv (pool : List Note) (s : AllocState) (todo : List Note) : Prop where
  free : ∀ i, (s.tracks i).Pairwise nonOlap
  timeB : ∀ i, ∀ n ∈ s.tracks i, ∀ m ∈ todo, n.time ≤ m.time
  der : ∀ i, ∀ n ∈ s.tracks i, Derives pool n
  cons : ∀ i, ∀ n ∈ s.tracks i, EndCons n
  todoSorted : todo.Pairwise (fun a b => a.time ≤ b.time)
  todoPool : ∀ m ∈ todo, m ∈ pool ∧ EndCons m

/-- Updating one track with a successful `tryTrack` result preserves the
invariant. -/
theorem update_inv {pool : List Note} {s : AllocState} {note : Note}
    {rest : List Note} {i : Track} {newArr : List Note}
    (h : Inv pool s (note :: rest))
    (ht : tryTrack note (s.tracks i) = some newArr)
    (aff' : List (Nat × Track)) :
    Inv pool
      { s with tracks := Function.update s.tracks i newArr, affinity := aff' } rest := by
  have hnotmem : note ∈ pool ∧ EndCons note := h.todoPool note (by simp)
  have hrestle : ∀ m ∈ rest, note.time ≤ m.time :=
    (List.pairwise_cons.mp h.todoSorted).1
  have htime : ∀ n ∈ s.tracks i, n.time ≤ note.time := fun n hn =>
    h.timeB i n hn note (by simp)
  obtain ⟨hfree, hder, hcons, htb⟩ :=
    tryTrack_inv (h.free i) htime (h.der i) (h.cons i)
      (derives_self hnotmem.1) hnotmem.2 ht
  refine ⟨?_, ?_, ?_, ?_, (List.pairwise_cons.mp h.todoSorted).2, ?_⟩
  · intro j
    dsimp only
    by_cases hj : j = i
    · subst hj; rw [Function.update_same]; exact hfree
    · rw [Function.update_noteq hj]; exact h.free j
  · intro j n hn m hm
    dsimp only at hn
    by_cases hj : j = i
    · subst hj
      rw [Function.update_same] at hn
      exact le_trans (htb n hn) (hrestle m hm)
    · rw [Function.update_noteq hj] at hn
      exact h.timeB j n hn m (by simp [hm])
  · intro j n hn
    dsimp only at hn
    by_cases hj : j = i
    · subst hj; rw [Function.update_same] at hn; exact hder n hn
    · rw [Function.update_noteq hj] at hn; exact h.der j n hn
  · intro j n hn
    dsimp only at hn
    by_cases hj : j = i
    · subst hj; rw [Function.update_same] at hn; exact hcons n hn
    · rw [Function.update_noteq hj] at hn; exact h.cons j n hn
  · intro m hm
    exact h.todoPool m (by simp [hm])

/-- Dropping the note (or touching only the affinity map) preserves the
invariant. -/
theorem untouched_inv {pool : List Note} {s : AllocState} {note : Note}
    {rest : List Note} (h : Inv pool s (note :: rest))
    (aff' : List (Nat × Track)) (dr' : List Note) :
    Inv pool { s with affinity := aff', dropped := dr' } rest := by
  refine ⟨h.free, ?_, h.der, h.cons, (List.pairwise_cons.mp h.todoSorted).2, ?_⟩
  · intro j n hn m hm
    exact h.timeB j n hn m (by simp [hm])
  · intro m hm
    exact h.todoPool m (by simp [hm])

/-- The full candidate scan preserves the invariant. -/
theorem fullScanStep_inv {pool : List Note} {s : AllocState} {note : Note}
    {rest : List Note} (h : Inv pool s (note :: rest))
    (skip : Option Track) (tryOrder : List Track) :
    Inv pool (fullScanStep note skip tryOrder s) rest := by
  unfold fullScanStep
  cases hs : scanTracks note skip s.tracks tryOrder with
  | some pr =>
    obtain ⟨i, newArr⟩ := pr
    exact update_inv h (scanTracks_some hs) _
  | none => exact untouched_inv h s.affinity _

/-- One allocation step preserves the invariant. -/
theorem allocStep_inv {pool ctx : List Note} {s : AllocState} {note : Note}
    {rest : List Note} (h : Inv pool s (note :: rest)) :
    Inv pool (allocStep ctx s note) rest := by
  unfold allocStep
  cases lookupAff s.affinity note.origTrack with
  | some p =>
    dsimp only
    cases hf : (s.tracks p).find? (fun n => overlapsB note n) with
    | none =>
      dsimp only
      have ht : tryTrack note (s.tracks p) = some (s.tracks p ++ [note]) := by
        unfold tryTrack
        rw [hf]
      exact update_inv h ht s.affinity
    | some ov => exact fullScanStep_inv h _ _
  | none => exact fullScanStep_inv h _ _

/-- The whole loop preserves the invariant. -/
theorem allocAll_inv {pool ctx : List Note} :
    ∀ {todo : List Note} {s : AllocState}, Inv pool s todo →
      Inv pool (allocAll ctx s todo) [] := by
  intro todo
  induction todo with
  | nil => intro s h; exact h
  | cons n rest ih => intro s h; exact ih (allocStep_inv h)

/-! ## Counting the allocated and dropped notes -/

/-- Total number of notes currently held by the three tracks. -/
def totalLen (s : AllocState) : Nat :=
  (s.tracks 0).length + (s.tracks 1).length + (s.tracks 2).length

theorem totalLen_update_succ {s : AllocState} {i : Track} {arr : List Note}
    (hlen : arr.length = (s.tracks i).length + 1) (aff' : List (Nat × Track)) :
    totalLen { s with tracks := Function.update s.tracks i arr, affinity := aff' }
      = totalLen s + 1 := by
  fin_cases i <;>
    (simp only [totalLen, Function.update] at hlen ⊢
     simp_all
     omega)

theorem fullScanStep_count (note : Note) (skip : Option Track)
    (tryOrder : List Track) (s : AllocState) :
    totalLen (fullScanStep note skip tryOrder s)
        + (fullScanStep note skip tryOrder s).dropped.length
      = totalLen s + s.dropped.length + 1 := by
  unfold fullScanStep
  cases hs : scanTracks note skip s.tracks tryOrder with
  | some pr =>
    obtain ⟨i, newArr⟩ := pr
    dsimp only
    rw [totalLen_update_succ (tryTrack_length (scanTracks_some hs)) _]
    omega
  | none =>
    dsimp only
    simp only [totalLen, List.length_append, List.length_singleton]
    omega

theorem allocStep_count (ctx : List Note) (s : AllocState) (note : Note) :
    totalLen (allocStep ctx s note) + (allocStep ctx s note).dropped.length
      = totalLen s + s.dropped.length + 1 := by
  unfold allocStep
  cases lookupAff s.affinity note.origTrack with
  | some p =>
    dsimp only
    cases hf : (s.tracks p).find? (fun n => overlapsB note n) with
    | none =>
      dsimp only
      rw [totalLen_update_succ (by simp) s.affinity]
      omega
    | some ov => exact fullScanStep_count note _ _ s
  | none => exact fullScanStep_count note _ _ s

theorem allocAll_count (ctx : List Note) :
    ∀ (todo : List Note) (s : AllocState),
      totalLen (allocAll ctx s todo) + (allocAll ctx s todo).dropped.length
        = totalLen s + s.dropped.length + todo.length := by
  intro todo
  induction todo with
  | nil => intro s; rfl
  | cons n rest ih =>
    intro s
    have hstep := allocStep_count ctx s n
    calc totalLen (allocAll ctx s (n :: rest))
          + (allocAll ctx s (n :: rest)).dropped.length
        = totalLen (allocAll ctx (allocStep ctx s n) rest)
          + (allocAll ctx (allocStep ctx s n) rest).dropped.length := rfl
      _ = totalLen (allocStep ctx s n) + (allocStep ctx s n).dropped.length
          + rest.length := ih (allocStep ctx s n)
      _ = totalLen s + s.dropped.length + (n :: rest).length := by
          rw [hstep, List.length_cons]; ring

/-! ## Affinity persistence -/

theorem lookupAff_insertIfAbsent {aff : List (Nat × Track)} {k' : Nat} {v' : Track}
    (k : Nat) (v : Track) (h : lookupAff aff k' = some v') :
    lookupAff (insertIfAbsent aff k v) k' = some v' := by
  unfold insertIfAbsent
  cases hk : lookupAff aff k with
  | some w => exact h
  | none =>
    dsimp only
    by_cases hkk : k = k'
    · subst hkk
      rw [hk] at h
      exact absurd h (by simp)
    · unfold lookupAff
      rw [List.find?_cons_of_neg _ (by simpa using hkk)]
      exact h

theorem allocStep_aff_persist {ctx : List Note} {s : AllocState} {note : Note}
    {k : Nat} {v : Track} (h : lookupAff s.affinity k = some v) :
    lookupAff (allocStep ctx s note).affinity k = some v := by
  have hfull : ∀ (skip : Option Track) (tryOrder : List Track),
      lookupAff (fullScanStep note skip tryOrder s).affinity k = some v := by
    intro skip tryOrder
    unfold fullScanStep
    cases hs : scanTracks note skip s.tracks tryOrder with
    | some pr =>
      obtain ⟨i, newArr⟩ := pr
      exact lookupAff_insertIfAbsent _ _ h
    | none => exact h
  unfold allocStep
  cases lookupAff s.affinity note.origTrack with
  | some p =>
    dsimp only
    cases (s.tracks p).find? (fun n => overlapsB note n) with
    | none => exact h
    | some ov => exact hfull _ _
  | none => exact hfull _ _

theorem allocAll_aff_persist (ctx : List Note) :
    ∀ (todo : List Note) (s : AllocState) (k : Nat) (v : Track),
      lookupAff s.affinity k = some v →
      lookupAff (allocAll ctx s todo).affinity k = some v := by
  intro todo
  induction todo with
  | nil => intro s k v h; exact h
  | cons n rest ih => intro s k v h; exact ih _ k v (allocStep_aff_persist h)

/-! ## The global ordering -/

theorem noteLE_trans : ∀ (a b c : Note), noteLE a b = true → noteLE b c = true →
    noteLE a c = true := by
  intro a b c hab hbc
  simp only [noteLE, Bool.or_eq_true, Bool.and_eq_true, decide_eq_true_eq] at hab hbc ⊢
  rcases hab with h1 | ⟨h1, h2⟩ <;> rcases hbc with h3 | ⟨h3, h4⟩
  · exact Or.inl (lt_trans h1 h3)
  · exact Or.inl (h3 ▸ h1)
  · exact Or.inl (h1 ▸ h3)
  · exact Or.inr ⟨h1.trans h3, le_trans h4 h2⟩

theorem noteLE_total : ∀ (a b : Note), (noteLE a b || noteLE b a) = true := by
  intro a b
  simp only [noteLE, Bool.or_eq_true, Bool.and_eq_true, decide_eq_true_eq]
  rcases lt_trichotomy a.time b.time with h | h | h
  · exact Or.inl (Or.inl h)
  · rcases le_total a.midi b.midi with hm | hm
    · exact Or.inr (Or.inr ⟨h.symm, hm⟩)
    · exact Or.inl (Or.inr ⟨h, hm⟩)
  · exact Or.inr (Or.inl h)

theorem sortedNotes_perm (input : List (List RawNote)) :
    (sortedNotes input).Perm (collectNotes input) :=
  List.mergeSort_perm _ _

theorem sortedNotes_sorted (input : List (List RawNote)) :
    (sortedNotes input).Pairwise (fun a b => noteLE a b = true) :=
  List.sorted_mergeSort noteLE_trans noteLE_total _

theorem noteLE_time {a b : Note} (h : noteLE a b = true) : a.time ≤ b.time := by
  simp only [noteLE, Bool.or_eq_true, Bool.and_eq_true, decide_eq_true_eq] at h
  rcases h with h | ⟨h, _⟩
  · exact le_of_lt h
  · exact le_of_eq h

theorem collectNotes_endCons {input : List (List RawNote)} {m : Note}
    (h : m ∈ collectNotes input) : EndCons m := by
  unfold collectNotes at h
  simp only [List.mem_flatten, List.mem_map] at h
  obtain ⟨l, ⟨p, _, rfl⟩, hm⟩ := h
  obtain ⟨r, _, rfl⟩ := List.mem_map.mp hm
  rfl

/-- The invariant holds at the start of the pass. -/
theorem initInv (input : List (List RawNote)) :
    Inv (collectNotes input) initState (sortedNotes input) := by
  refine ⟨?_, ?_, ?_, ?_, ?_, ?_⟩
  · intro i; exact List.Pairwise.nil
  · intro i n hn; exact absurd hn (List.not_mem_nil n)
  · intro i n hn; exact absurd hn (List.not_mem_nil n)
  · intro i n hn; exact absurd hn (List.not_mem_nil n)
  · exact (sortedNotes_sorted input).imp noteLE_time
  · intro m hm
    have hmem : m ∈ collectNotes input := (sortedNotes_perm input).mem_iff.mp hm
    exact ⟨hmem, collectNotes_endCons hmem⟩

/-- The invariant holds after the pass. -/
theorem allocPass_inv (input : List (List RawNote)) :
    Inv (collectNotes input) (allocPass input) [] :=
  allocAll_inv (initInv input)

theorem processMidi_perm (input : List (List RawNote)) (i : Track) :
    (processMidi input i).Perm ((allocPass input).tracks i) :=
  List.mergeSort_perm _ _

/-! ## Facts about the pitch maximum -/

theorem le_foldl_max (x : Int) (xs : List Int) : x ≤ xs.foldl max x := by
  induction xs generalizing x with
  | nil => exact le_refl x
  | cons a xs ih => exact le_trans (le_max_left x a) (ih (max x a))

theorem mem_le_foldl_max {y : Int} {xs : List Int} (x : Int) (h : y ∈ xs) :
    y ≤ xs.foldl max x := by
  induction xs generalizing x with
  | nil => exact absurd h (List.not_mem_nil y)
  | cons a xs ih =>
    rcases List.mem_cons.mp h with rfl | h
    · exact le_trans (le_max_right x y) (le_foldl_max _ xs)
    · exact ih (max x a) h

theorem foldl_max_mem (x : Int) (xs : List Int) : xs.foldl max x ∈ x :: xs := by
  induction xs generalizing x with
  | nil => simp
  | cons a xs ih =>
    have h := ih (max x a)
    rcases List.mem_cons.mp h with h | h
    · rcases max_choice x a with hc | hc
      · rw [List.foldl_cons, h, hc]; simp
      · rw [List.foldl_cons, h, hc]; simp
    · rw [List.foldl_cons]; exact List.mem_cons_of_mem x (List.mem_cons_of_mem a h)

/-! ## Claim theorems -/

/-- C1: after the allocation pass over any input note sequence, on each of
the three output tracks every pair of distinct notes has intervals
[start, start + duration) overlapping by at most ε = 1e-6 seconds
(end-to-start contact within ε counts as non-overlapping). -/
theorem claim_C1_overlap_free (input : List (List RawNote)) (i : Track) :
    (processMidi input i).Pairwise
      (fun a b => min (a.time + a.duration) (b.time + b.duration)
        - max a.time b.time ≤ eps) := by
  have hinv := allocPass_inv input
  have hperm := processMidi_perm input i
  have hfree : (processMidi input i).Pairwise nonOlap :=
    (hperm.pairwise_iff (fun {x y} h => nonOlap_comm.mp h)).mpr (hinv.free i)
  refine hfree.imp_of_mem ?_
  intro a b ha hb hab
  have hca : EndCons a := hinv.cons i a (hperm.mem_iff.mp ha)
  have hcb : EndCons b := hinv.cons i b (hperm.mem_iff.mp hb)
  rw [nonOlap_def] at hab
  unfold Olap at hab
  rw [EndCons] at hca hcb
  have h1 : min (a.time + a.duration) (b.time + b.duration) ≤ a.time + a.duration :=
    min_le_left _ _
  have h2 : min (a.time + a.duration) (b.time + b.duration) ≤ b.time + b.duration :=
    min_le_right _ _
  have h3 : b.time ≤ max a.time b.time := le_max_right _ _
  have h4 : a.time ≤ max a.time b.time := le_max_left _ _
  rcases not_and_or.mp hab with h | h
  · rw [not_lt, hca] at h
    linarith
  · rw [not_lt, hcb] at h
    linarith

/-- C3: the number of notes across the three output tracks plus the number
of dropped notes equals the number of input notes; hence the total across
the tracks is at most the input count, with equality exactly when nothing
was dropped. -/
theorem claim_C3_count_bound (input : List (List RawNote)) :
    (processMidi input 0).length + (processMidi input 1).length
        + (processMidi input 2).length + (allocPass input).dropped.length
      = (collectNotes input).length ∧
    (processMidi input 0).length + (processMidi input 1).length
        + (processMidi input 2).length ≤ (collectNotes input).length ∧
    ((processMidi input 0).length + (processMidi input 1).length
        + (processMidi input 2).length = (collectNotes input).length ↔
      (allocPass input).dropped = []) := by
  have hcount : totalLen (allocPass input) + (allocPass input).dropped.length
      = (collectNotes input).length := by
    unfold allocPass
    rw [allocAll_count]
    have hlen : (sortedNotes input).length = (collectNotes input).length :=
      List.length_mergeSort _
    simpa [totalLen, initState] using hlen
  have hp0 : (processMidi input 0).length = ((allocPass input).tracks 0).length :=
    List.length_mergeSort _
  have hp1 : (processMidi input 1).length = ((allocPass input).tracks 1).length :=
    List.length_mergeSort _
  have hp2 : (processMidi input 2).length = ((allocPass input).tracks 2).length :=
    List.length_mergeSort _
  have htot : totalLen (allocPass input) = ((allocPass input).tracks 0).length
      + ((allocPass input).tracks 1).length + ((allocPass input).tracks 2).length := rfl
  refine ⟨by omega, by omega, ?_, ?_⟩
  · intro he
    have : (allocPass input).dropped.length = 0 := by omega
    exact List.length_eq_zero.mp this
  · intro he
    rw [he] at hcount
    simp only [List.length_nil, Nat.add_zero] at hcount
    omega

/-- C5: an affinity entry, once present, survives the rest of the
allocation pass unchanged: every later write is guarded by an absence
check. -/
theorem claim_C5_affinity_immutable (ctx : List Note) (s : AllocState)
    (todo : List Note) (k : Nat) (v : Track)
    (h : lookupAff s.affinity k = some v) :
    lookupAff (allocAll ctx s todo).affinity k = some v :=
  allocAll_aff_persist ctx todo s k v h

/-- Witness for C5 at a concrete state and pending note. -/
theorem claim_C5_witness :
    lookupAff (allocAll []
      { tracks := fun _ => [], affinity := [(0, (0 : Track))], dropped := [] }
      [(⟨60, 0, 1, 1, 1, 5⟩ : Note)]).affinity 0 = some 0 :=
  claim_C5_affinity_immutable []
    { tracks := fun _ => [], affinity := [(0, (0 : Track))], dropped := [] }
    [(⟨60, 0, 1, 1, 1, 5⟩ : Note)] 0 0 (by decide)

/-- C6: a note on an output track with duration at or below the 0.01
floor can only be a verbatim input note (so no truncated note has
duration ≤ 0.01); and when both truncation rules would need a duration
at or below the floor, the candidate track rejects the note. -/
theorem claim_C6_truncation_floor :
    (∀ (input : List (List RawNote)) (i : Track) (n : Note),
        n ∈ processMidi input i → n.duration ≤ 1/100 → n ∈ collectNotes input) ∧
    (∀ (note : Note) (arr : List Note) (ov : Note),
        arr.find? (fun m => overlapsB note m) = some ov →
        ov.time - note.time ≤ 1/100 → note.time - ov.time ≤ 1/100 →
        tryTrack note arr = none) := by
  constructor
  · intro input i n hn hd
    obtain ⟨m, hm, _, _, _, _, _, hdisj⟩ :=
      (allocPass_inv input).der i n ((processMidi_perm input i).mem_iff.mp hn)
    rcases hdisj with rfl | hfloor
    · exact hm
    · exact absurd hd (not_le.mpr hfloor)
  · intro note arr ov hf h1 h2
    unfold tryTrack
    rw [hf]
    dsimp only
    rw [if_neg, if_neg]
    · simp only [Bool.and_eq_true, decide_eq_true_eq, not_and]
      intro _ hc
      exact absurd hc (not_lt.mpr h2)
    · simp only [Bool.and_eq_true, decide_eq_true_eq, not_and]
      intro _ hc
      exact absurd hc (not_lt.mpr h1)

unseal Rat.add Rat.sub Rat.mul Rat.inv in
/-- Witness for C6: the second part applied at a concrete blocked track
(two fully coincident notes, neither truncation rule applicable). -/
theorem claim_C6_witness :
    tryTrack (⟨60, 0, 2, 1, 2, 0⟩ : Note) [(⟨50, 0, 2, 1, 2, 1⟩ : Note)] = none :=
  claim_C6_truncation_floor.2 _ _ (⟨50, 0, 2, 1, 2, 1⟩ : Note)
    (by decide) (by decide) (by decide)

/-- C7: the allocator's processing order is the merge of all source
tracks' notes, sorted by start time ascending with ties broken by pitch
descending. -/
theorem claim_C7_ordering (input : List (List RawNote)) :
    (sortedNotes input).Perm (collectNotes input) ∧
    (sortedNotes input).Pairwise
      (fun a b => a.time < b.time ∨ (a.time = b.time ∧ b.midi ≤ a.midi)) := by
  refine ⟨sortedNotes_perm input, (sortedNotes_sorted input).imp ?_⟩
  intro a b h
  simpa only [noteLE, Bool.or_eq_true, Bool.and_eq_true, decide_eq_true_eq] using h

/-- C9: allocation preserves pitch, velocity and start time of every
output note, and never lengthens a note. -/
theorem claim_C9_frame (input : List (List RawNote)) (i : Track) (n : Note)
    (h : n ∈ processMidi input i) :
    ∃ m ∈ collectNotes input, n.midi = m.midi ∧ n.velocity = m.velocity ∧
      n.time = m.time ∧ n.duration ≤ m.duration := by
  obtain ⟨m, hm, e1, e2, e3, _, e5, _⟩ :=
    (allocPass_inv input).der i n ((processMidi_perm input i).mem_iff.mp h)
  exact ⟨m, hm, e1, e3, e2, e5⟩

/-- C4: for a note of the processed sequence, the pitch-based suggestion
is 0 (Main Theme) exactly when the note's pitch is maximal among the
notes sharing its exact start time, and 1 (Chord) otherwise; it is never
2 (Base), the broken lowest-pitch branch being identically false. -/
theorem claim_C4_pitch_suggestion (allNotes : List Note) (note : Note)
    (h : note ∈ allNotes) :
    (idxByPitch allNotes note = 0 ↔
      ∀ m ∈ allNotes, m.time = note.time → m.midi ≤ note.midi) ∧
    idxByPitch allNotes note ≠ 2 ∧
    (idxByPitch allNotes note = 0 ∨ idxByPitch allNotes note = 1) := by
  have hmem : note ∈ allNotes.filter (fun n => decide (n.time = note.time)) :=
    List.mem_filter.mpr ⟨h, by simp⟩
  cases hml : (allNotes.filter (fun n => decide (n.time = note.time))).map
      (fun (n : Note) => n.midi) with
  | nil =>
    exact absurd (hml ▸ List.mem_map_of_mem (fun (n : Note) => n.midi) hmem)
      (List.not_mem_nil _)
  | cons x xs =>
    have hidx : idxByPitch allNotes note =
        if note.midi = xs.foldl max x then 0 else 1 := by
      unfold idxByPitch
      simp only [brokenBaseCheck, Bool.false_eq_true, if_false, hml, jsMax,
        Option.some.injEq]
    have hle : ∀ y : Int, y ∈ x :: xs → y ≤ xs.foldl max x := by
      intro y hy
      rcases List.mem_cons.mp hy with rfl | hy
      · exact le_foldl_max _ _
      · exact mem_le_foldl_max _ hy
    have hiff : note.midi = xs.foldl max x ↔
        ∀ m ∈ allNotes, m.time = note.time → m.midi ≤ note.midi := by
      constructor
      · intro he m hm ht
        have hmm : m.midi ∈ x :: xs :=
          hml ▸ List.mem_map_of_mem (fun (n : Note) => n.midi)
            (List.mem_filter.mpr ⟨hm, by simp [ht]⟩)
        rw [he]
        exact hle _ hmm
      · intro hall
        have h1 : note.midi ≤ xs.foldl max x :=
          hle _ (hml ▸ List.mem_map_of_mem (fun (n : Note) => n.midi) hmem)
        have h2 : xs.foldl max x ≤ note.midi := by
          have hmem2 : xs.foldl max x ∈
              (allNotes.filter (fun n => decide (n.time = note.time))).map
                (fun (n : Note) => n.midi) := by
            rw [hml]; exact foldl_max_mem x xs
          obtain ⟨m, hm, he⟩ := List.mem_map.mp hmem2
          have hmf := List.mem_filter.mp hm
          exact he ▸ hall m hmf.1 (by simpa using hmf.2)
        exact le_antisymm h1 h2
    refine ⟨?_, ?_, ?_⟩
    · rw [hidx]
      constructor
      · intro h0
        by_cases he : note.midi = xs.foldl max x
        · exact hiff.mp he
        · rw [if_neg he] at h0
          exact absurd h0 (by decide)
      · intro hall
        rw [if_pos (hiff.mpr hall)]
    · rw [hidx]
      split
      · decide
      · decide
    · rw [hidx]
      split
      · exact Or.inl rfl
      · exact Or.inr rfl

/-- Witness for C4: a single note is trivially the pitch maximum at its
start time, hence suggested to Main Theme. -/
theorem claim_C4_witness : idxByPitch [(⟨60, 0, 1, 1, 1, 0⟩ : Note)]
    (⟨60, 0, 1, 1, 1, 0⟩ : Note) = 0 :=
  (claim_C4_pitch_suggestion [(⟨60, 0, 1, 1, 1, 0⟩ : Note)]
    (⟨60, 0, 1, 1, 1, 0⟩ : Note) (by decide)).1.mpr (by decide)

/-! ## Concrete scenarios -/

/-- Scenario A input: one source track with two notes at start time 0,
pitches 60 and 72, duration 1 each. -/
def scenarioA : List (List RawNote) := [[⟨60, 0, 1, 1/2⟩, ⟨72, 0, 1, 1/2⟩]]

theorem sortedNotes_scenarioA : sortedNotes scenarioA =
    [⟨72, 0, 1, 1/2, 1, 0⟩, ⟨60, 0, 1, 1/2, 1, 0⟩] := by
  simp +decide [scenarioA, sortedNotes, collectNotes, List.enum, List.enumFrom,
    List.mergeSort, noteLE]

unseal Rat.add Rat.sub Rat.mul Rat.inv in
theorem allocPass_scenarioA_eval :
    (allocPass scenarioA).tracks 0 = [⟨72, 0, 1, 1/2, 1, 0⟩] ∧
    (allocPass scenarioA).tracks 1 = [⟨60, 0, 1, 1/2, 1, 0⟩] ∧
    (allocPass scenarioA).tracks 2 = [] ∧
    (allocPass scenarioA).dropped = [] := by
  have h : allocPass scenarioA = allocAll
      [⟨72, 0, 1, 1/2, 1, 0⟩, ⟨60, 0, 1, 1/2, 1, 0⟩] initState
      [⟨72, 0, 1, 1/2, 1, 0⟩, ⟨60, 0, 1, 1/2, 1, 0⟩] := by
    unfold allocPass
    rw [sortedNotes_scenarioA]
  rw [h]
  refine ⟨?_, ?_, ?_, ?_⟩ <;> decide

/-- C8: on Scenario A the pitch-72 note lands on Main Theme and the
pitch-60 note on Chord, both untruncated, nothing dropped. -/
theorem claim_C8_scenario_A :
    processMidi scenarioA 0 = [⟨72, 0, 1, 1/2, 1, 0⟩] ∧
    processMidi scenarioA 1 = [⟨60, 0, 1, 1/2, 1, 0⟩] ∧
    processMidi scenarioA 2 = [] ∧
    (allocPass scenarioA).dropped = [] := by
  obtain ⟨h0, h1, h2, hd⟩ := allocPass_scenarioA_eval
  refine ⟨?_, ?_, ?_, hd⟩
  · show ((allocPass scenarioA).tracks 0).mergeSort timeLE = _
    rw [h0]
    exact List.mergeSort_singleton _
  · show ((allocPass scenarioA).tracks 1).mergeSort timeLE = _
    rw [h1]
    exact List.mergeSort_singleton _
  · show ((allocPass scenarioA).tracks 2).mergeSort timeLE = _
    rw [h2]
    exact List.mergeSort_nil

/-- Scenario D input: origin track 0 holds a note 0.0–2.0 (pitch 60) and a
later note 1.0–3.0 (pitch 50); origin tracks 1 and 2 hold notes 1.0–3.0
(pitches 70 and 65) that fill the other two output tracks, so no other
track is free when the later origin-0 note arrives. -/
def scenarioD : List (List RawNote) :=
  [[⟨60, 0, 2, 1/2⟩, ⟨50, 1, 2, 1/2⟩], [⟨70, 1, 2, 1/2⟩], [⟨65, 1, 2, 1/2⟩]]

theorem sortedNotes_scenarioD : sortedNotes scenarioD =
    [⟨60, 0, 2, 1/2, 2, 0⟩, ⟨70, 1, 2, 1/2, 3, 1⟩,
     ⟨65, 1, 2, 1/2, 3, 2⟩, ⟨50, 1, 2, 1/2, 3, 0⟩] := by
  simp +decide [scenarioD, sortedNotes, collectNotes, List.enum, List.enumFrom,
    List.mergeSort, noteLE]
  norm_num

unseal Rat.add Rat.sub Rat.mul Rat.inv in
theorem allocPass_scenarioD_eval :
    (allocPass scenarioD).tracks 0 = [⟨60, 0, 2, 1/2, 2, 0⟩] ∧
    (allocPass scenarioD).tracks 1 = [⟨70, 1, 2, 1/2, 3, 1⟩] ∧
    (allocPass scenarioD).tracks 2 = [⟨65, 1, 2, 1/2, 3, 2⟩] ∧
    (allocPass scenarioD).dropped = [⟨50, 1, 2, 1/2, 3, 0⟩] ∧
    lookupAff (allocPass scenarioD).affinity 0 = some 0 := by
  have h : allocPass scenarioD = allocAll
      [⟨60, 0, 2, 1/2, 2, 0⟩, ⟨70, 1, 2, 1/2, 3, 1⟩,
       ⟨65, 1, 2, 1/2, 3, 2⟩, ⟨50, 1, 2, 1/2, 3, 0⟩] initState
      [⟨60, 0, 2, 1/2, 2, 0⟩, ⟨70, 1, 2, 1/2, 3, 1⟩,
       ⟨65, 1, 2, 1/2, 3, 2⟩, ⟨50, 1, 2, 1/2, 3, 0⟩] := by
    unfold allocPass
    rw [sortedNotes_scenarioD]
  rw [h]
  refine ⟨?_, ?_, ?_, ?_, ?_⟩ <;> decide

/-- Counterexample for C2: in the Scenario D situation (earlier note
0.0–2.0 and later note 1.0–3.0 of the same origin, affinity bound to
Main Theme, both other tracks blocked) the claim asserts that no note is
dropped; the pass does drop one. -/
theorem claim_C2_counterexample : (allocPass scenarioD).dropped ≠ [] := by
  rw [allocPass_scenarioD_eval.2.2.2.1]
  simp

/-- C2 amended: in the Scenario D situation the full scan never
reconsiders the affinity-preferred track and the existing-note truncation
rule does not apply (the earlier note does not extend past the later
note's end), so the earlier note stays untruncated at 0.0–2.0 and the
later note is dropped. -/
theorem claim_C2_amended :
    processMidi scenarioD 0 = [⟨60, 0, 2, 1/2, 2, 0⟩] ∧
    (allocPass scenarioD).dropped = [⟨50, 1, 2, 1/2, 3, 0⟩] ∧
    lookupAff (allocPass scenarioD).affinity 0 = some 0 := by
  obtain ⟨h0, _, _, hd, ha⟩ := allocPass_scenarioD_eval
  refine ⟨?_, hd, ha⟩
  show ((allocPass scenarioD).tracks 0).mergeSort timeLE = _
  rw [h0]
  exact List.mergeSort_singleton _

/-- C10: a dropped note leaves the three track lists and the affinity map
exactly as they were. -/
theorem claim_C10_drop_atomic (ctx : List Note) (s : AllocState) (note : Note)
    (h : (allocStep ctx s note).dropped ≠ s.dropped) :
    (allocStep ctx s note).tracks = s.tracks ∧
    (allocStep ctx s note).affinity = s.affinity := by
  have hfull : ∀ (skip : Option Track) (tryOrder : List Track),
      (fullScanStep note skip tryOrder s).dropped ≠ s.dropped →
      (fullScanStep note skip tryOrder s).tracks = s.tracks ∧
      (fullScanStep note skip tryOrder s).affinity = s.affinity := by
    intro skip tryOrder hne
    unfold fullScanStep at hne ⊢
    cases hs : scanTracks note skip s.tracks tryOrder with
    | some pr =>
      rw [hs] at hne
      obtain ⟨i, newArr⟩ := pr
      exact absurd rfl hne
    | none => exact ⟨rfl, rfl⟩
  unfold allocStep at h ⊢
  cases hl : lookupAff s.affinity note.origTrack with
  | some p =>
    rw [hl] at h
    dsimp only at h ⊢
    cases hf : (s.tracks p).find? (fun n => overlapsB note n) with
    | none =>
      rw [hf] at h
      dsimp only at h
      exact absurd rfl h
    | some ov =>
      rw [hf] at h
      dsimp only at h ⊢
      exact hfull _ _ h
  | none =>
    rw [hl] at h
    dsimp only at h ⊢
    exact hfull _ _ h

unseal Rat.add Rat.sub Rat.mul Rat.inv in
/-- Witness for C10: a note overlapping blocked notes on all three tracks
is dropped, and the state's tracks and affinity are untouched. -/
theorem claim_C10_witness :
    (allocStep []
        { tracks := fun _ => [(⟨50, 0, 2, 1, 2, 1⟩ : Note)], affinity := [],
          dropped := [] }
        (⟨60, 0, 2, 1, 2, 0⟩ : Note)).tracks
      = (fun _ => [(⟨50, 0, 2, 1, 2, 1⟩ : Note)]) ∧
    (allocStep []
        { tracks := fun _ => [(⟨50, 0, 2, 1, 2, 1⟩ : Note)], affinity := [],
          dropped := [] }
        (⟨60, 0, 2, 1, 2, 0⟩ : Note)).affinity = [] :=
  claim_C10_drop_atomic []
    { tracks := fun _ => [(⟨50, 0, 2, 1, 2, 1⟩ : Note)], affinity := [],
      dropped := [] }
    (⟨60, 0, 2, 1, 2, 0⟩ : Note) (by decide)

/-- Witness for C9 at the Scenario A input and its Main-Theme output. -/
theorem claim_C9_witness :
    ∃ m ∈ collectNotes scenarioA,
      (⟨72, 0, 1, 1/2, 1, 0⟩ : Note).midi = m.midi ∧
      (⟨72, 0, 1, 1/2, 1, 0⟩ : Note).velocity = m.velocity ∧
      (⟨72, 0, 1, 1/2, 1, 0⟩ : Note).time = m.time ∧
      (⟨72, 0, 1, 1/2, 1, 0⟩ : Note).duration ≤ m.duration :=
  claim_C9_frame scenarioA 0 (⟨72, 0, 1, 1/2, 1, 0⟩ : Note)
    (by
      show (⟨72, 0, 1, 1/2, 1, 0⟩ : Note) ∈
        ((allocPass scenarioA).tracks 0).mergeSort timeLE
      rw [allocPass_scenarioA_eval.1, List.mergeSort_singleton]
      simp)

end A1miniNoter
